import Mathlib

/-!
The program `dic`, a command-line dictionary lookup tool.

A shallow embedding of `src/main.go` and proofs about its lookup client, its
renderer and its entry point.

Conventions of the embedding:

* Go strings are Lean `String`s; `len(s)` is the number of UTF-8 bytes.
* Everything written to standard output is returned as a `String`: a
  function that prints returns the text it prints, and successive prints are
  concatenated in program order.
* A `for ... range` loop that appends to a slice is a left fold; a loop that
  carries mutable locals is a recursive function carrying them as arguments.
* The HTTP transport, `io.ReadAll` and `json.Unmarshal` are library code: they
  enter as the fields of `Env`.
-/

set_option linter.dupNamespace false
set_option linter.unusedVariables false

namespace Dic

/-! ## Data model (main.go, lines 14-39) -/

/-- The constant `BaseUrl`. -/
def BaseUrl : String := "https://api.dictionaryapi.dev/api/v2/entries/en/"

/-- The type `Phonetic`. -/
structure Phonetic where
  Text : String
  Audio : String
deriving DecidableEq, Repr

/-- The type `Definition`. -/
structure Definition where
  Definition : String
  Example : String
  Synonyms : List String
  Antonyms : List String
deriving DecidableEq, Repr

/-- The type `Meaning`. -/
structure Meaning where
  PartOfSpeech : String
  Definitions : List Definition
deriving DecidableEq, Repr

/-- The type `Word`. -/
structure Word where
  Word : String
  Phonetic : String
  Phonetics : List Dic.Phonetic
  Origin : String
  Meanings : List Meaning
deriving DecidableEq, Repr

/-- Go's builtin `len` on a string: its length in bytes. -/
def len (s : String) : Nat := s.utf8ByteSize

/-! ## The styling library

`github.com/fatih/color` is an external dependency; its source is not under
`src/`. The renderer below is parametric in what a `Print`/`Printf` call on a
colour object writes (`pr`), and `plain` is the instance that writes the text
alone. `Color.Print` is the instance that follows the library: a colour object
is a list of SGR attributes with an optional setting of its own, which
`EnableColor` and `DisableColor` set, and which `isNoColorSet` consults before
the process-wide switch `NoColor`; `Print` is `Set`, the text, `unset`. -/

/-- The SGR attributes the program uses. -/
inductive Attribute where
  | Bold
  | Italic
  | FgGreen
  | FgYellow
  | FgBlue
deriving DecidableEq, Repr

/-- Numeric SGR code of an attribute (`color.Bold = 1`, `color.Italic = 3`,
`color.FgGreen = 32`, `color.FgYellow = 33`, `color.FgBlue = 34`). -/
def Attribute.code : Attribute → Nat
  | .Bold => 1
  | .Italic => 3
  | .FgGreen => 32
  | .FgYellow => 33
  | .FgBlue => 34

/-- A colour object: its attributes and its own no-colour override
(`nil` until `EnableColor` or `DisableColor` is called). -/
structure Color where
  params : List Attribute
  noColor : Option Bool
deriving DecidableEq, Repr

/-- The call `color.New(attrs...)`. -/
def Color.New (attrs : List Attribute) : Color := ⟨attrs, none⟩

/-- The method `c.Add(attr)`. -/
def Color.Add (c : Color) (a : Attribute) : Color := { c with params := c.params ++ [a] }

/-- The method `c.EnableColor()`: sets the object's override to "colour on". -/
def Color.EnableColor (c : Color) : Color := { c with noColor := some false }

/-- The method `c.DisableColor()`: sets the object's override to "colour off". -/
def Color.DisableColor (c : Color) : Color := { c with noColor := some true }

/-- The library's `isNoColorSet`: the object's own override when it has one,
the process-wide `NoColor` otherwise. -/
def Color.isNoColorSet (NoColor : Bool) (c : Color) : Bool :=
  match c.noColor with
  | some b => b
  | none => NoColor

/-- The SGR start sequence of a colour object, `ESC [ p1;p2;... m`. -/
def Color.format (c : Color) : String :=
  "\x1b[" ++ ";".intercalate (c.params.map (fun a => toString a.code)) ++ "m"

/-- The library's method `Set`: writes the start sequence unless the object
counts as no-colour. -/
def Color.Set (NoColor : Bool) (c : Color) : String :=
  if c.isNoColorSet NoColor then "" else c.format

/-- The library's package-level `Unset`: writes the reset sequence `ESC [ 0 m`
unless the process-wide switch is on. -/
def Unset (NoColor : Bool) : String :=
  if NoColor then "" else "\x1b[0m"

/-- The library's method `unset`: nothing when the object counts as no-colour,
the package-level `Unset` otherwise. -/
def Color.unset (NoColor : Bool) (c : Color) : String :=
  if c.isNoColorSet NoColor then "" else Unset NoColor

/-- What `c.Print(s)` and `c.Printf` with the formatted text `s` write under
the library: `Set`, the text, `unset`. `NoColor` is the process-wide switch,
which the library turns on when standard output is not a terminal. -/
def Color.Print (NoColor : Bool) (c : Color) (s : String) : String :=
  c.Set NoColor ++ s ++ c.unset NoColor

/-- Printing with all styling left out: the text alone. -/
def plain (_ : Color) (s : String) : String := s

/-! ## Renderer (main.go, lines 76-167) -/

/-- The function `printPhonetics` (lines 155-167). -/
def printPhonetics (phonetics : List Phonetic) : String :=
  let phoneticTexts : List String :=
    phonetics.foldl
      (fun acc phonetic => if len phonetic.Text > 0 then acc ++ [phonetic.Text] else acc) []
  if phoneticTexts.length > 0 then
    let phoneticsString := ", ".intercalate phoneticTexts
    " [" ++ phoneticsString ++ "]"
  else
    ""

/-- The filtering loops of `printMeaning` (lines 118-123 and 135-140): the
non-empty strings of a slice, appended one by one. -/
def present (xs : List String) : List String :=
  xs.foldl (fun acc x => if len x > 0 then acc ++ [x] else acc) []

/-- One iteration of the loop over `meaning.Definitions` in `printMeaning`
(lines 98-150): given the value of `contentAfterDefinition` on entry, the text
written and the value of the flag on exit. -/
def printDefinition (pr : Color → String → String) (contentAfterDefinition : Bool)
    (definition : Definition) : String × Bool :=
  let out := if contentAfterDefinition then "\n" else ""
  let c := Color.New [.Italic]
  let out := out ++ pr c "def. "
  let c := (Color.New [.Bold]).Add .FgBlue
  let out := out ++ pr c (definition.Definition ++ "\n")
  let r1 : String × Bool :=
    if len definition.Example > 0 then
      let c := Color.New [.Italic]
      let out := out ++ pr c "ex.  "
      let c := c.DisableColor
      (out ++ pr c (definition.Example ++ "\n"), true)
    else
      (out, contentAfterDefinition)
  let c := Color.New [.Italic]
  let presentSynonyms := present definition.Synonyms
  let r2 : String × Bool × Color :=
    if presentSynonyms.length > 0 then
      let synonyms := ", ".intercalate presentSynonyms
      let c := c.EnableColor
      let out := r1.1 ++ pr c "syn."
      let c := c.DisableColor
      (out ++ pr c (" " ++ synonyms ++ "\n"), true, c)
    else
      (r1.1, r1.2, c)
  let presentAntonyms := present definition.Antonyms
  let r3 : String × Bool :=
    if presentAntonyms.length > 0 then
      let antonyms := ", ".intercalate presentAntonyms
      let c := r2.2.2.EnableColor
      let out := r2.1 ++ pr c "ant."
      let c := c.DisableColor
      (out ++ pr c (" " ++ antonyms ++ "\n"), true)
    else
      (r2.1, r2.2.1)
  r3

/-- The loop over `meaning.Definitions` in `printMeaning` (lines 97-152),
started with a given value of `contentAfterDefinition`. -/
def printDefinitions (pr : Color → String → String) : Bool → List Definition → String
  | _, [] => ""
  | contentAfterDefinition, definition :: rest =>
    (printDefinition pr contentAfterDefinition definition).1 ++
      printDefinitions pr (printDefinition pr contentAfterDefinition definition).2 rest

/-- The function `printMeaning` (lines 90-153). -/
def printMeaning (pr : Color → String → String) (meaning : Meaning) : String :=
  let c := Color.New [.FgYellow]
  let out :=
    if len meaning.PartOfSpeech > 0 then pr c ("\n" ++ meaning.PartOfSpeech ++ "\n") else ""
  out ++ printDefinitions pr false meaning.Definitions

/-- The function `printWord` (lines 76-88). -/
def printWord (pr : Color → String → String) (word : Word) (num : Nat) : String :=
  let c := (Color.New [.Bold]).Add .FgGreen
  let out := pr c (toString (num + 1) ++ ". " ++ word.Word)
  let out := out ++ printPhonetics word.Phonetics
  if word.Meanings.length > 0 then
    word.Meanings.foldl (fun out meaning => out ++ printMeaning pr meaning) (out ++ "\n")
  else
    out

/-- The render loop of `main` (lines 181-186), from index `i` on. -/
def renderLoop (pr : Color → String → String) : Nat → List Word → String
  | _, [] => ""
  | i, word :: rest =>
    (if i > 0 then "\n" else "") ++ printWord pr word i ++ renderLoop pr (i + 1) rest

/-! ## Lookup client and entry point (main.go, lines 41-74 and 169-187) -/

/-- A Go `error` value, observed only through its `Error()` text. -/
structure GoError where
  Error : String
deriving DecidableEq, Repr

/-- The call `errors.New(text)`. -/
def errorsNew (text : String) : GoError := ⟨text⟩

/-- An HTTP response as `Lookup` sees it: the status code and what
`io.ReadAll(resp.Body)` would return. -/
structure Response where
  StatusCode : Int
  Body : Except GoError (List UInt8)

/-- The libraries and the world around the program: `http.Get`,
`json.Unmarshal` into a `[]Word`, and what a print on a colour object writes. -/
structure Env where
  httpGet : String → Except GoError Response
  unmarshal : List UInt8 → Except GoError (List Word)
  pr : Color → String → String

/-- The function `Lookup` (lines 41-68): the URLs requested, and the returned
pair `(words, err)` as an `Except`. -/
def Lookup (env : Env) (phrase : String) : List String × Except GoError (List Word) :=
  let url := BaseUrl ++ phrase
  ([url],
    match env.httpGet url with
    | .error err => .error err
    | .ok resp =>
      if resp.StatusCode != 200 then
        if resp.StatusCode == 404 then
          .error (errorsNew "Couldn't find word.")
        else
          .error (errorsNew "Something went wrong.")
      else
        match resp.Body with
        | .error err => .error err
        | .ok body =>
          match env.unmarshal body with
          | .error err => .error err
          | .ok words => .ok words)

/-- The text printed by `usage` (lines 70-74). -/
def usage : String := "dic\n\nUsage: dic <query>"

/-- What a run of the process leaves behind: the text on standard output, the
exit code, and the URLs it requested. -/
structure Outcome where
  stdout : String
  exitCode : Nat
  requests : List String
deriving DecidableEq, Repr

/-- The function `main` (lines 169-187) on the argument vector `os.Args`
(program name first). Indexing `os.Args[1]` out of range is a runtime panic,
which ends the process with exit code 2. -/
def main (env : Env) (osArgs : List String) : Outcome :=
  if osArgs.length == 1 then
    { stdout := usage, exitCode := 0, requests := [] }
  else
    match osArgs[1]? with
    | none => { stdout := "", exitCode := 2, requests := [] }
    | some phrase =>
      match Lookup env phrase with
      | (requests, .error err) =>
        { stdout := err.Error ++ "\n", exitCode := 1, requests := requests }
      | (requests, .ok words) =>
        { stdout := renderLoop env.pr 0 words, exitCode := 0, requests := requests }

/-! ## Vocabulary of the statements -/

/-- A string is non-empty. -/
def nonEmpty (s : String) : Bool := decide (s ≠ "")

/-- A definition has content after its definition line: a non-empty example,
or at least one non-empty synonym, or at least one non-empty antonym. -/
def hasContent (d : Definition) : Bool :=
  nonEmpty d.Example || d.Synonyms.any nonEmpty || d.Antonyms.any nonEmpty

/-- A definition is bare: empty example, no non-empty synonym, no non-empty
antonym. -/
def bare (d : Definition) : Bool := !hasContent d

/-- The lines of a definition's block as the specification words them: the
definition line, then the example line, the synonym line and the antonym line,
each present only when there is something to show. -/
def definitionLines (d : Definition) : List String :=
  ["def. " ++ d.Definition] ++
    (if nonEmpty d.Example then ["ex.  " ++ d.Example] else []) ++
    (if d.Synonyms.any nonEmpty then
      ["syn. " ++ ", ".intercalate (d.Synonyms.filter nonEmpty)] else []) ++
    (if d.Antonyms.any nonEmpty then
      ["ant. " ++ ", ".intercalate (d.Antonyms.filter nonEmpty)] else [])

/-- A text made of the given lines, each terminated by a newline. -/
def unlines (ls : List String) : String := String.join (ls.map (fun l => l ++ "\n"))

/-- The lines of a sequence of characters: the runs between newline characters,
a final run counting only when it is not empty. -/
def splitLines : List Char → List (List Char)
  | [] => []
  | c :: cs =>
    if c = '\n' then [] :: splitLines cs
    else
      match splitLines cs with
      | [] => [[c]]
      | l :: ls => (c :: l) :: ls

/-- The lines of a text. A blank line is an entry `""` of this list. -/
def lines (s : String) : List String := (splitLines s.data).map String.mk

/-- A string holds no newline character. -/
@[reducible] def NoNewline (s : String) : Prop := '\n' ∉ s.data

/-- All texts of a definition are free of newline characters. -/
@[reducible] def Definition.Clean (d : Dic.Definition) : Prop :=
  NoNewline d.Definition ∧ NoNewline d.Example ∧
    (∀ s ∈ d.Synonyms, NoNewline s) ∧ (∀ s ∈ d.Antonyms, NoNewline s)

/-- All texts of a meaning are free of newline characters. -/
@[reducible] def Meaning.Clean (m : Meaning) : Prop :=
  NoNewline m.PartOfSpeech ∧ ∀ d ∈ m.Definitions, d.Clean

/-- All rendered texts of a word entry are free of newline characters. -/
@[reducible] def Word.Clean (w : Dic.Word) : Prop :=
  NoNewline w.Word ∧ (∀ p ∈ w.Phonetics, NoNewline p.Text) ∧ ∀ m ∈ w.Meanings, m.Clean

instance (d : Definition) : Decidable d.Clean := by
  unfold Definition.Clean
  infer_instance

instance (m : Meaning) : Decidable m.Clean := by
  unfold Meaning.Clean
  infer_instance

instance (w : Word) : Decidable w.Clean := by
  unfold Word.Clean
  infer_instance

/-- The blank line, if any, that separates two blocks. -/
def blankIf (b : Bool) : List String := if b then [""] else []

/-- A text after which whatever follows starts on a new line: its lines are
not affected by the text that comes after it. -/
def Terminated (s : String) : Prop := ∀ rest : String, lines (s ++ rest) = lines s ++ lines rest

/-- The header of an entry block, `<num+1>. <word>` followed by the phonetic
segment. -/
def headerLine (w : Word) (num : Nat) : String :=
  toString (num + 1) ++ ". " ++ w.Word ++ printPhonetics w.Phonetics

/-- The lines of a sequence of entry blocks numbered from `i`, in input order,
with a blank line after every block but the last for which `blank` holds. -/
def blocksLines (blank : Word → Bool) : Nat → List Word → List String
  | _, [] => []
  | i, [w] => lines (printWord plain w i)
  | i, w :: w' :: rest =>
    lines (printWord plain w i) ++ blankIf (blank w) ++ blocksLines blank (i + 1) (w' :: rest)

/-! ## Sample inputs -/

/-- A definition with an example. -/
def sampleWithExample : Definition := ⟨"a", "e", [], []⟩

/-- A bare definition. -/
def sampleBare : Definition := ⟨"b", "", [], []⟩

/-- A second bare definition; its only synonym is the empty string. -/
def sampleBare2 : Definition := ⟨"c", "", [""], []⟩

/-- A definition with synonyms and antonyms, some of them empty strings. -/
def sampleFull : Definition := ⟨"d", "x", ["s", "", "t"], ["", "u"]⟩

/-- An entry with two meanings. -/
def sampleWord : Word :=
  ⟨"w", "", [⟨"fo", ""⟩, ⟨"", ""⟩], "",
    [⟨"noun", [sampleFull]⟩, ⟨"", [sampleWithExample, sampleBare, sampleBare2]⟩]⟩

/-- An entry without meanings. -/
def sampleEntryA : Word := ⟨"a", "", [], "", []⟩

/-- Another entry without meanings. -/
def sampleEntryB : Word := ⟨"b", "", [], "", []⟩

/-- A world in which every request is answered with the given status and an
empty body, and every body decodes to the one entry `sampleEntryA`. -/
def sampleEnv (status : Int) : Env :=
  { httpGet := fun _ => .ok ⟨status, .ok []⟩
    unmarshal := fun _ => .ok [sampleEntryA]
    pr := plain }

/-! ## Basic facts -/

theorem len_pos_iff (s : String) : 0 < len s ↔ s ≠ "" := by
  rcases s with ⟨l⟩
  cases l with
  | nil => simp [len, String.utf8ByteSize, String.utf8ByteSize.go]
  | cons c cs =>
    have h := Char.utf8Size_pos c
    have hne : (⟨c :: cs⟩ : String) ≠ "" := by
      intro h'
      have := congrArg String.data h'
      simp at this
    simp only [len, String.utf8ByteSize, String.utf8ByteSize.go, ne_eq, hne, not_false_eq_true,
      iff_true]
    omega

theorem len_pos_eq_nonEmpty (s : String) : decide (len s > 0) = nonEmpty s := by
  simp [nonEmpty, len_pos_iff]

theorem foldl_present (xs acc : List String) :
    xs.foldl (fun acc x => if len x > 0 then acc ++ [x] else acc) acc
      = acc ++ xs.filter nonEmpty := by
  induction xs generalizing acc with
  | nil => simp
  | cons x xs ih =>
    simp only [List.foldl_cons, ih, List.filter_cons]
    by_cases h : len x > 0
    · have h' : nonEmpty x = true := by rw [← len_pos_eq_nonEmpty]; simpa using h
      simp [h, h']
    · have h' : nonEmpty x = false := by rw [← len_pos_eq_nonEmpty]; simpa using h
      simp [h, h']

theorem present_eq_filter (xs : List String) : present xs = xs.filter nonEmpty := by
  simp [present, foldl_present]

theorem filter_length_pos (xs : List String) :
    decide ((xs.filter nonEmpty).length > 0) = xs.any nonEmpty := by
  induction xs with
  | nil => simp
  | cons x xs ih =>
    by_cases h : nonEmpty x = true
    · simp [List.filter_cons, h]
    · simp only [Bool.not_eq_true] at h
      simpa [List.filter_cons, h] using ih


theorem join_foldl (l : List String) (acc : String) :
    l.foldl (fun r s => r ++ s) acc = acc ++ String.join l := by
  induction l generalizing acc with
  | nil => simp [String.join]
  | cons a l ih =>
    simp only [String.join, List.foldl_cons]
    rw [ih, ih ("" ++ a)]
    simp [String.append_assoc]

theorem join_nil : String.join [] = "" := rfl

theorem join_cons (a : String) (l : List String) : String.join (a :: l) = a ++ String.join l := by
  simp only [String.join, List.foldl_cons]
  rw [join_foldl]
  simp [String.join]

theorem join_append (l l' : List String) :
    String.join (l ++ l') = String.join l ++ String.join l' := by
  induction l with
  | nil => simp [join_nil]
  | cons a l ih => simp [join_cons, ih, String.append_assoc]

theorem unlines_nil : unlines [] = "" := rfl

theorem unlines_cons (l : String) (ls : List String) :
    unlines (l :: ls) = l ++ "\n" ++ unlines ls := by
  simp [unlines, join_cons]

theorem unlines_append (ls ls' : List String) :
    unlines (ls ++ ls') = unlines ls ++ unlines ls' := by
  simp [unlines, join_append]

theorem printDefinition_plain (flag : Bool) (d : Definition) :
    printDefinition plain flag d
      = ((if flag then "\n" else "") ++ unlines (definitionLines d), flag || hasContent d) := by
  have hs : ∀ x : String, "\nsyn." ++ (" " ++ x) = "\n" ++ ("syn. " ++ x) := by
    intro x
    rw [← String.append_assoc, ← String.append_assoc]
    rfl
  have ha : ∀ x : String, "\nant." ++ (" " ++ x) = "\n" ++ ("ant. " ++ x) := by
    intro x
    rw [← String.append_assoc, ← String.append_assoc]
    rfl
  have he : ∀ x : String, "\nex.  " ++ x = "\n" ++ ("ex.  " ++ x) := by
    intro x
    rw [← String.append_assoc]
    rfl
  have e1 : decide (len d.Example > 0) = nonEmpty d.Example := len_pos_eq_nonEmpty _
  have e2 := filter_length_pos d.Synonyms
  have e3 := filter_length_pos d.Antonyms
  unfold printDefinition
  simp only [plain, present_eq_filter, definitionLines, hasContent]
  cases hE : nonEmpty d.Example <;> cases hS : d.Synonyms.any nonEmpty <;>
    cases hA : d.Antonyms.any nonEmpty <;>
    simp only [hE, hS, hA] at e1 e2 e3 <;>
    simp only [decide_eq_true_eq, decide_eq_false_iff_not] at e1 e2 e3 <;>
    simp [e1, e2, e3, unlines_cons, unlines_nil, String.append_assoc, hs, ha, he]

theorem printDefinitions_plain (flag : Bool) (d : Definition) (ds : List Definition) :
    printDefinitions plain flag (d :: ds)
      = (if flag then "\n" else "") ++ unlines (definitionLines d)
          ++ printDefinitions plain (flag || hasContent d) ds := by
  simp [printDefinitions, printDefinition_plain]


/-! ## Lines of a text -/

theorem splitLines_eq_nil (l : List Char) : splitLines l = [] ↔ l = [] := by
  cases l with
  | nil => simp [splitLines]
  | cons c cs =>
    simp only [splitLines]
    split_ifs
    · simp
    · split <;> simp

theorem splitLines_single (l : List Char) (h : '\n' ∉ l) (hne : l ≠ []) :
    splitLines l = [l] := by
  induction l with
  | nil => exact absurd rfl hne
  | cons c cs ih =>
    have hc : c ≠ '\n' := fun e => h (by simp [e])
    have hcs : '\n' ∉ cs := fun e => h (by simp [e])
    simp only [splitLines, hc, if_false]
    cases cs with
    | nil => simp [splitLines]
    | cons c' cs' => rw [ih hcs (by simp)]

theorem splitLines_line (l rest : List Char) (h : '\n' ∉ l) :
    splitLines (l ++ '\n' :: rest) = l :: splitLines rest := by
  induction l with
  | nil => simp [splitLines]
  | cons c cs ih =>
    have hc : c ≠ '\n' := fun e => h (by simp [e])
    have hcs : '\n' ∉ cs := fun e => h (by simp [e])
    have e : splitLines (c :: (cs ++ '\n' :: rest)) = (c :: cs) :: splitLines rest := by
      simp only [splitLines, hc, if_false, ih hcs]
    simpa using e

theorem newline_data : "\n".data = ['\n'] := rfl

theorem lines_empty : lines "" = [] := rfl

theorem lines_single (l : String) (h : NoNewline l) (hne : l ≠ "") : lines l = [l] := by
  have : l.data ≠ [] := fun e => hne (String.ext (by simpa using e))
  simp [lines, splitLines_single l.data h this]

theorem lines_line (l rest : String) (h : NoNewline l) :
    lines (l ++ "\n" ++ rest) = l :: lines rest := by
  simp only [lines, String.data_append, newline_data, List.append_assoc, List.singleton_append]
  rw [splitLines_line _ _ h]
  simp

theorem lines_newline (rest : String) : lines ("\n" ++ rest) = "" :: lines rest := by
  have := lines_line "" rest (by simp [NoNewline])
  simpa using this

theorem lines_unlines (ls : List String) (rest : String) (h : ∀ l ∈ ls, NoNewline l) :
    lines (unlines ls ++ rest) = ls ++ lines rest := by
  induction ls with
  | nil => simp [unlines_nil]
  | cons l ls ih =>
    rw [unlines_cons, String.append_assoc, lines_line _ _ (h l (by simp)),
      ih (fun x hx => h x (by simp [hx]))]
    simp

theorem lines_blankIf (b : Bool) (rest : String) :
    lines ((if b then "\n" else "") ++ rest) = blankIf b ++ lines rest := by
  cases b <;> simp [blankIf, lines_newline]


/-! ## Newline-free texts -/

theorem noNewline_append (a b : String) : NoNewline (a ++ b) ↔ NoNewline a ∧ NoNewline b := by
  simp [NoNewline, String.data_append, not_or]

theorem noNewline_intercalate_go (acc sep : String) (xs : List String)
    (hacc : NoNewline acc) (hsep : NoNewline sep) (hxs : ∀ x ∈ xs, NoNewline x) :
    NoNewline (String.intercalate.go acc sep xs) := by
  induction xs generalizing acc with
  | nil => simpa [String.intercalate.go] using hacc
  | cons x xs ih =>
    simp only [String.intercalate.go]
    apply ih
    · rw [noNewline_append, noNewline_append]
      exact ⟨⟨hacc, hsep⟩, hxs x (by simp)⟩
    · intro y hy
      exact hxs y (by simp [hy])

theorem noNewline_intercalate (sep : String) (xs : List String)
    (hsep : NoNewline sep) (hxs : ∀ x ∈ xs, NoNewline x) :
    NoNewline (sep.intercalate xs) := by
  cases xs with
  | nil => simp [String.intercalate, NoNewline]
  | cons x xs =>
    simp only [String.intercalate]
    exact noNewline_intercalate_go x sep xs (hxs x (by simp)) hsep
      (fun y hy => hxs y (by simp [hy]))

theorem ite_ne_of {α : Type} (c : Prop) [Decidable c] (a b x : α) (ha : a ≠ x) (hb : b ≠ x) :
    (if c then a else b) ≠ x := by
  split <;> assumption

theorem digitChar_ne_newline (n : Nat) : Nat.digitChar n ≠ '\n' := by
  unfold Nat.digitChar
  repeat' apply ite_ne_of
  all_goals decide

theorem toDigitsCore_noNewline (b fuel n : Nat) (ds : List Char) (h : '\n' ∉ ds) :
    '\n' ∉ Nat.toDigitsCore b fuel n ds := by
  induction fuel generalizing n ds with
  | zero => simpa [Nat.toDigitsCore] using h
  | succ fuel ih =>
    have hd : '\n' ∉ Nat.digitChar (n % b) :: ds := by
      intro hmem
      rcases List.mem_cons.mp hmem with e | e
      · exact digitChar_ne_newline _ e.symm
      · exact h e
    simp only [Nat.toDigitsCore]
    split_ifs
    · exact hd
    · exact ih _ _ hd

theorem noNewline_toString (n : Nat) : NoNewline (toString n) := by
  show '\n' ∉ (Nat.toDigits 10 n).asString.data
  exact toDigitsCore_noNewline 10 (n + 1) n [] (by simp)

theorem noNewline_definitionLines (d : Definition) (h : d.Clean) :
    ∀ l ∈ definitionLines d, NoNewline l := by
  obtain ⟨h1, h2, h3, h4⟩ := h
  have k1 : NoNewline ("def. " ++ d.Definition) :=
    (noNewline_append _ _).mpr ⟨by decide, h1⟩
  have k2 : NoNewline ("ex.  " ++ d.Example) :=
    (noNewline_append _ _).mpr ⟨by decide, h2⟩
  have k3 : NoNewline ("syn. " ++ ", ".intercalate (d.Synonyms.filter nonEmpty)) :=
    (noNewline_append _ _).mpr ⟨by decide, noNewline_intercalate _ _ (by decide)
      (fun x hx => h3 x (List.mem_filter.mp hx).1)⟩
  have k4 : NoNewline ("ant. " ++ ", ".intercalate (d.Antonyms.filter nonEmpty)) :=
    (noNewline_append _ _).mpr ⟨by decide, noNewline_intercalate _ _ (by decide)
      (fun x hx => h4 x (List.mem_filter.mp hx).1)⟩
  intro l hl
  simp only [definitionLines, List.mem_append, List.mem_singleton] at hl
  rcases hl with ((hl | hl) | hl) | hl
  · rw [hl]; exact k1
  · split_ifs at hl
    · rw [List.mem_singleton.mp hl]; exact k2
    · simp at hl
  · split_ifs at hl
    · rw [List.mem_singleton.mp hl]; exact k3
    · simp at hl
  · split_ifs at hl
    · rw [List.mem_singleton.mp hl]; exact k4
    · simp at hl


/-! ## Terminated texts -/

theorem terminated_empty : Terminated "" := by
  intro rest
  simp [lines_empty]

theorem terminated_append (a b : String) (ha : Terminated a) (hb : Terminated b) :
    Terminated (a ++ b) := by
  intro rest
  rw [String.append_assoc, ha, hb, ha b, List.append_assoc]

theorem terminated_unlines (ls : List String) (h : ∀ l ∈ ls, NoNewline l) :
    Terminated (unlines ls) := by
  intro rest
  have h1 := lines_unlines ls rest h
  have h2 := lines_unlines ls "" h
  simp only [String.append_empty, lines_empty, List.append_nil] at h2
  rw [h1, h2]

theorem terminated_blank (b : Bool) : Terminated (if b then "\n" else "") := by
  intro rest
  have h := lines_blankIf b ""
  simp only [String.append_empty, lines_empty, List.append_nil] at h
  rw [lines_blankIf, h]

theorem lines_unlines_self (ls : List String) (h : ∀ l ∈ ls, NoNewline l) :
    lines (unlines ls) = ls := by
  have h2 := lines_unlines ls "" h
  simpa [lines_empty] using h2

theorem terminated_join (xs : List String) (h : ∀ x ∈ xs, Terminated x) :
    Terminated (String.join xs) := by
  induction xs with
  | nil => simpa [join_nil] using terminated_empty
  | cons x xs ih =>
    rw [join_cons]
    exact terminated_append _ _ (h x (by simp)) (ih (fun y hy => h y (by simp [hy])))

theorem lines_join (xs : List String) (h : ∀ x ∈ xs, Terminated x) :
    lines (String.join xs) = (xs.map lines).flatten := by
  induction xs with
  | nil => simp [join_nil, lines_empty]
  | cons x xs ih =>
    rw [join_cons, h x (by simp), ih (fun y hy => h y (by simp [hy]))]
    simp

/-! ## The definitions loop -/

theorem printDefinitions_append (flag : Bool) (pre rest : List Definition) :
    printDefinitions plain flag (pre ++ rest)
      = printDefinitions plain flag pre
          ++ printDefinitions plain (flag || pre.any hasContent) rest := by
  induction pre generalizing flag with
  | nil => simp [printDefinitions]
  | cons d pre ih =>
    simp only [List.cons_append, printDefinitions_plain, ih, List.any_cons, String.append_assoc,
      Bool.or_assoc]

theorem terminated_printDefinitions (flag : Bool) (ds : List Definition)
    (h : ∀ d ∈ ds, d.Clean) : Terminated (printDefinitions plain flag ds) := by
  induction ds generalizing flag with
  | nil => simpa [printDefinitions] using terminated_empty
  | cons d ds ih =>
    rw [printDefinitions_plain]
    refine terminated_append _ _ (terminated_append _ _ (terminated_blank flag) ?_) ?_
    · exact terminated_unlines _ (noNewline_definitionLines d (h d (by simp)))
    · exact ih _ (fun x hx => h x (by simp [hx]))

theorem lines_printDefinitions_cons (flag : Bool) (d : Definition) (ds : List Definition)
    (hd : d.Clean) :
    lines (printDefinitions plain flag (d :: ds))
      = blankIf flag ++ definitionLines d
          ++ lines (printDefinitions plain (flag || hasContent d) ds) := by
  rw [printDefinitions_plain, String.append_assoc, lines_blankIf,
    lines_unlines _ _ (noNewline_definitionLines d hd), List.append_assoc]


/-! ## Meanings, entries and the render loop -/

theorem printMeaning_plain (m : Meaning) :
    printMeaning plain m
      = (if nonEmpty m.PartOfSpeech then "\n" ++ m.PartOfSpeech ++ "\n" else "")
          ++ printDefinitions plain false m.Definitions := by
  have e : decide (len m.PartOfSpeech > 0) = nonEmpty m.PartOfSpeech := len_pos_eq_nonEmpty _
  unfold printMeaning
  cases h : nonEmpty m.PartOfSpeech <;> simp only [h] at e <;>
    simp only [decide_eq_true_eq, decide_eq_false_iff_not] at e <;> simp [e, plain]

theorem terminated_partOfSpeech (p : String) (h : NoNewline p) :
    Terminated (if nonEmpty p then "\n" ++ p ++ "\n" else "") := by
  cases hp : nonEmpty p
  · simpa using terminated_empty
  · have := terminated_unlines ["", p] (by
      intro l hl
      simp only [List.mem_cons, List.mem_singleton, List.not_mem_nil, or_false] at hl
      rcases hl with e | e
      · rw [e]; decide
      · rw [e]; exact h)
    simpa [unlines_cons, unlines_nil, String.append_assoc] using this

theorem lines_partOfSpeech (p : String) (h : NoNewline p) :
    lines (if nonEmpty p then "\n" ++ p ++ "\n" else "") = if nonEmpty p then ["", p] else [] := by
  cases hp : nonEmpty p
  · simp [lines_empty]
  · have := lines_unlines_self ["", p] (by
      intro l hl
      simp only [List.mem_cons, List.mem_singleton, List.not_mem_nil, or_false] at hl
      rcases hl with e | e
      · rw [e]; decide
      · rw [e]; exact h)
    simpa [unlines_cons, unlines_nil, String.append_assoc] using this

theorem terminated_printMeaning (m : Meaning) (h : m.Clean) :
    Terminated (printMeaning plain m) := by
  rw [printMeaning_plain]
  exact terminated_append _ _ (terminated_partOfSpeech _ h.1) (terminated_printDefinitions _ _ h.2)

theorem foldl_printMeaning (pr : Color → String → String) (ms : List Meaning) (acc : String) :
    ms.foldl (fun out meaning => out ++ printMeaning pr meaning) acc
      = acc ++ String.join (ms.map (printMeaning pr)) := by
  induction ms generalizing acc with
  | nil => simp [join_nil]
  | cons m ms ih => simp [ih, join_cons, String.append_assoc]

theorem foldl_phonetics (ps : List Phonetic) (acc : List String) :
    ps.foldl (fun acc phonetic => if len phonetic.Text > 0 then acc ++ [phonetic.Text] else acc) acc
      = acc ++ (ps.filter (fun p => nonEmpty p.Text)).map (fun p => p.Text) := by
  induction ps generalizing acc with
  | nil => simp
  | cons p ps ih =>
    simp only [List.foldl_cons, ih, List.filter_cons]
    by_cases h : len p.Text > 0
    · have h' : nonEmpty p.Text = true := by rw [← len_pos_eq_nonEmpty]; simpa using h
      simp [h, h']
    · have h' : nonEmpty p.Text = false := by rw [← len_pos_eq_nonEmpty]; simpa using h
      simp [h, h']

theorem printPhonetics_eq (ps : List Phonetic) :
    printPhonetics ps
      = if ps.any (fun p => nonEmpty p.Text) then
          " [" ++ ", ".intercalate ((ps.filter (fun p => nonEmpty p.Text)).map (fun p => p.Text))
            ++ "]"
        else "" := by
  unfold printPhonetics
  simp only [foldl_phonetics, List.nil_append, List.length_map]
  have e : decide ((ps.filter (fun p => nonEmpty p.Text)).length > 0)
      = ps.any (fun p => nonEmpty p.Text) := by
    induction ps with
    | nil => simp
    | cons p ps ih =>
      by_cases h : nonEmpty p.Text = true
      · simp [List.filter_cons, h]
      · simp only [Bool.not_eq_true] at h
        simpa [List.filter_cons, h] using ih
  cases h : ps.any (fun p => nonEmpty p.Text) <;> simp only [h] at e <;>
    simp only [decide_eq_true_eq, decide_eq_false_iff_not] at e <;> simp [e]

theorem printWord_eq (pr : Color → String → String) (w : Word) (num : Nat) :
    printWord pr w num
      = pr ((Color.New [.Bold]).Add .FgGreen) (toString (num + 1) ++ ". " ++ w.Word)
          ++ printPhonetics w.Phonetics
          ++ (if w.Meanings.length > 0 then
                "\n" ++ String.join (w.Meanings.map (printMeaning pr)) else "") := by
  unfold printWord
  by_cases h : w.Meanings.length > 0
  · simp only [h, if_true, foldl_printMeaning, String.append_assoc]
  · simp [h]

theorem printWord_plain (w : Word) (num : Nat) :
    printWord plain w num
      = headerLine w num
          ++ (if w.Meanings.length > 0 then
                "\n" ++ String.join (w.Meanings.map (printMeaning plain)) else "") := by
  rw [printWord_eq]
  simp [plain, headerLine]

theorem noNewline_printPhonetics (ps : List Phonetic) (h : ∀ p ∈ ps, NoNewline p.Text) :
    NoNewline (printPhonetics ps) := by
  rw [printPhonetics_eq]
  split_ifs
  · rw [noNewline_append, noNewline_append]
    refine ⟨⟨by decide, noNewline_intercalate _ _ (by decide) ?_⟩, by decide⟩
    intro x hx
    obtain ⟨p, hp, rfl⟩ := List.mem_map.mp hx
    exact h p (List.mem_filter.mp hp).1
  · decide

theorem noNewline_headerLine (w : Word) (num : Nat) (h : w.Clean) :
    NoNewline (headerLine w num) := by
  unfold headerLine
  rw [noNewline_append, noNewline_append, noNewline_append]
  exact ⟨⟨⟨noNewline_toString _, by decide⟩, h.1⟩, noNewline_printPhonetics _ h.2.1⟩

theorem headerLine_ne_empty (w : Word) (num : Nat) : headerLine w num ≠ "" := by
  intro e
  have := congrArg String.data e
  simp [headerLine, String.data_append] at this


theorem terminated_meanings (ms : List Meaning) (h : ∀ m ∈ ms, m.Clean) :
    Terminated (String.join (ms.map (printMeaning plain))) := by
  apply terminated_join
  intro x hx
  obtain ⟨m, hm, rfl⟩ := List.mem_map.mp hx
  exact terminated_printMeaning m (h m hm)

theorem lines_printWord (w : Word) (num : Nat) (h : w.Clean) :
    lines (printWord plain w num)
      = headerLine w num :: (w.Meanings.map (fun m => lines (printMeaning plain m))).flatten := by
  rw [printWord_plain]
  by_cases hm : w.Meanings.length > 0
  · simp only [hm, if_true]
    rw [← String.append_assoc, lines_line _ _ (noNewline_headerLine w num h), lines_join]
    · simp [List.map_map, Function.comp_def]
    · intro x hx
      obtain ⟨m, hm', rfl⟩ := List.mem_map.mp hx
      exact terminated_printMeaning m (h.2.2 m hm')
  · have hnil : w.Meanings = [] := by
      cases hw : w.Meanings with
      | nil => rfl
      | cons a l => simp [hw] at hm
    simp only [hm, if_false, String.append_empty]
    rw [lines_single _ (noNewline_headerLine w num h) (headerLine_ne_empty w num), hnil]
    simp

theorem lines_printWord_then (w : Word) (num : Nat) (h : w.Clean) (R : String) :
    lines (printWord plain w num ++ ("\n" ++ R))
      = lines (printWord plain w num) ++ blankIf (decide (w.Meanings.length > 0)) ++ lines R := by
  by_cases hm : w.Meanings.length > 0
  · have ht : Terminated (printWord plain w num) := by
      rw [printWord_plain]
      simp only [hm, if_true]
      rw [← String.append_assoc]
      refine terminated_append _ _ ?_ (terminated_meanings _ h.2.2)
      have := terminated_unlines [headerLine w num] (by
        intro l hl
        rw [List.mem_singleton.mp hl]
        exact noNewline_headerLine w num h)
      simpa [unlines_cons, unlines_nil] using this
    rw [ht, lines_newline]
    simp [hm, blankIf]
  · have e : printWord plain w num = headerLine w num := by
      rw [printWord_plain]
      simp [hm]
    rw [e, ← String.append_assoc, lines_line _ _ (noNewline_headerLine w num h),
      lines_single _ (noNewline_headerLine w num h) (headerLine_ne_empty w num)]
    simp [hm, blankIf]

theorem lines_renderLoop_from (w : Word) (rest : List Word) (i : Nat)
    (h : ∀ x ∈ w :: rest, x.Clean) :
    lines (printWord plain w i ++ renderLoop plain (i + 1) rest)
      = blocksLines (fun x => decide (x.Meanings.length > 0)) i (w :: rest) := by
  induction rest generalizing w i with
  | nil => simp [renderLoop, blocksLines]
  | cons w' rest ih =>
    have hw : w.Clean := h w (by simp)
    have hrest : ∀ x ∈ w' :: rest, x.Clean := fun x hx => h x (by simp [hx])
    have e : renderLoop plain (i + 1) (w' :: rest)
        = "\n" ++ (printWord plain w' (i + 1) ++ renderLoop plain (i + 1 + 1) rest) := by
      simp [renderLoop, String.append_assoc]
    rw [e, lines_printWord_then w i hw, ih w' (i + 1) hrest]
    simp [blocksLines]


/-! ## Where blank lines can be -/

theorem getLast_nonblank_of_all (ls : List String) (h : ∀ l ∈ ls, l ≠ "") :
    ls.getLast? ≠ some "" := by
  intro e
  exact h "" (List.mem_of_mem_getLast? (by simp [e])) rfl

theorem getLast_nonblank_append (a b : List String) (hb : b.getLast? ≠ some "")
    (ha : b = [] → a.getLast? ≠ some "") : (a ++ b).getLast? ≠ some "" := by
  rw [List.getLast?_append]
  cases hb' : b.getLast? with
  | none =>
    have := List.getLast?_eq_none_iff.mp hb'
    simpa using ha this
  | some x =>
    rw [hb'] at hb
    simpa using hb

theorem label_append_ne_empty (label x : String) (h : label ≠ "") : label ++ x ≠ "" := by
  intro e
  have e' := congrArg String.data e
  simp only [String.data_append] at e'
  have : label.data = [] := (List.append_eq_nil.mp e').1
  exact h (String.ext this)

theorem definitionLines_nonblank (d : Definition) : ∀ l ∈ definitionLines d, l ≠ "" := by
  intro l hl
  simp only [definitionLines, List.mem_append, List.mem_singleton] at hl
  rcases hl with ((hl | hl) | hl) | hl
  · rw [hl]; exact label_append_ne_empty _ _ (by decide)
  · split_ifs at hl
    · rw [List.mem_singleton.mp hl]; exact label_append_ne_empty _ _ (by decide)
    · simp at hl
  · split_ifs at hl
    · rw [List.mem_singleton.mp hl]; exact label_append_ne_empty _ _ (by decide)
    · simp at hl
  · split_ifs at hl
    · rw [List.mem_singleton.mp hl]; exact label_append_ne_empty _ _ (by decide)
    · simp at hl

theorem definitionLines_head (d : Definition) :
    (definitionLines d).head? = some ("def. " ++ d.Definition) := by
  simp [definitionLines]

theorem definitionLines_ne_nil (d : Definition) : definitionLines d ≠ [] := by
  simp [definitionLines]

theorem getLast_printDefinitions (flag : Bool) (ds : List Definition) (h : ∀ d ∈ ds, d.Clean) :
    (lines (printDefinitions plain flag ds)).getLast? ≠ some "" := by
  induction ds generalizing flag with
  | nil => simp [printDefinitions, lines_empty]
  | cons d ds ih =>
    rw [lines_printDefinitions_cons flag d ds (h d (by simp))]
    refine getLast_nonblank_append _ _ (ih _ (fun x hx => h x (by simp [hx]))) (fun _ => ?_)
    exact getLast_nonblank_append _ _
      (getLast_nonblank_of_all _ (definitionLines_nonblank d))
      (fun e => absurd e (definitionLines_ne_nil d))

theorem lines_printMeaning (m : Meaning) (h : m.Clean) :
    lines (printMeaning plain m)
      = (if nonEmpty m.PartOfSpeech then ["", m.PartOfSpeech] else [])
          ++ lines (printDefinitions plain false m.Definitions) := by
  rw [printMeaning_plain, terminated_partOfSpeech _ h.1, lines_partOfSpeech _ h.1]

theorem getLast_printMeaning (m : Meaning) (h : m.Clean) :
    (lines (printMeaning plain m)).getLast? ≠ some "" := by
  rw [lines_printMeaning m h]
  refine getLast_nonblank_append _ _ (getLast_printDefinitions _ _ h.2) (fun _ => ?_)
  cases hp : nonEmpty m.PartOfSpeech
  · simp
  · have : m.PartOfSpeech ≠ "" := by simpa [nonEmpty] using hp
    simpa using this

theorem lines_printMeaning_split (pos : String) (pre : List Definition) (d : Definition)
    (post : List Definition) (h : Meaning.Clean ⟨pos, pre ++ d :: post⟩) :
    lines (printMeaning plain ⟨pos, pre ++ d :: post⟩)
      = lines (printMeaning plain ⟨pos, pre⟩) ++ blankIf (pre.any hasContent)
          ++ definitionLines d
          ++ lines (printDefinitions plain (pre.any hasContent || hasContent d) post) := by
  have hpre : Meaning.Clean ⟨pos, pre⟩ := ⟨h.1, fun x hx => h.2 x (by simp [hx])⟩
  have hd : d.Clean := h.2 d (by simp)
  have e : printMeaning plain ⟨pos, pre ++ d :: post⟩
      = printMeaning plain ⟨pos, pre⟩
          ++ printDefinitions plain (pre.any hasContent) (d :: post) := by
    simp only [printMeaning_plain, printDefinitions_append, Bool.false_or, String.append_assoc]
  rw [e, terminated_printMeaning _ hpre, lines_printDefinitions_cons _ _ _ hd]
  simp only [List.append_assoc]


theorem getLast_meanings (ms : List Meaning) (h : ∀ m ∈ ms, m.Clean) :
    ((ms.map (fun x => lines (printMeaning plain x))).flatten).getLast? ≠ some "" := by
  induction ms with
  | nil => simp
  | cons m ms ih =>
    simp only [List.map_cons, List.flatten_cons]
    exact getLast_nonblank_append _ _ (ih (fun x hx => h x (by simp [hx])))
      (fun _ => getLast_printMeaning m (h m (by simp)))

/-! ## The flag, for every styling -/

theorem printDefinition_flag (pr : Color → String → String) (flag : Bool) (d : Definition) :
    (printDefinition pr flag d).2 = (flag || hasContent d) := by
  have e1 : decide (len d.Example > 0) = nonEmpty d.Example := len_pos_eq_nonEmpty _
  have e2 := filter_length_pos d.Synonyms
  have e3 := filter_length_pos d.Antonyms
  unfold printDefinition
  simp only [present_eq_filter, hasContent]
  cases hE : nonEmpty d.Example <;> cases hS : d.Synonyms.any nonEmpty <;>
    cases hA : d.Antonyms.any nonEmpty <;>
    simp only [hE, hS, hA] at e1 e2 e3 <;>
    simp only [decide_eq_true_eq, decide_eq_false_iff_not] at e1 e2 e3 <;>
    simp [e1, e2, e3]

theorem printDefinition_text (pr : Color → String → String) (flag : Bool) (d : Definition) :
    (printDefinition pr flag d).1
      = (if flag then "\n" else "") ++ (printDefinition pr false d).1 := by
  unfold printDefinition
  by_cases h1 : len d.Example > 0 <;> by_cases h2 : (present d.Synonyms).length > 0 <;>
    by_cases h3 : (present d.Antonyms).length > 0 <;>
    simp [h1, h2, h3, String.append_assoc]

theorem printDefinition_starts (pr : Color → String → String) (d : Definition) :
    ∃ rest : String, (printDefinition pr false d).1
      = pr (Color.New [.Italic]) "def. "
          ++ pr ((Color.New [.Bold]).Add .FgBlue) (d.Definition ++ "\n") ++ rest := by
  unfold printDefinition
  by_cases h1 : len d.Example > 0 <;> by_cases h2 : (present d.Synonyms).length > 0 <;>
    by_cases h3 : (present d.Antonyms).length > 0 <;>
    simp only [h1, h2, h3, if_true, if_false, Bool.false_eq_true, String.empty_append,
      String.append_assoc] <;>
    first
      | exact ⟨_, rfl⟩
      | exact ⟨"", by simp⟩

theorem printDefinitions_split (pr : Color → String → String) (flag : Bool)
    (pre : List Definition) (d : Definition) (post : List Definition) :
    printDefinitions pr flag (pre ++ d :: post)
      = printDefinitions pr flag pre
          ++ (if flag || pre.any hasContent then "\n" else "")
          ++ (printDefinition pr false d).1
          ++ printDefinitions pr (flag || pre.any hasContent || hasContent d) post := by
  induction pre generalizing flag with
  | nil =>
    simp only [List.nil_append, printDefinitions, List.any_nil, Bool.or_false,
      String.empty_append, printDefinition_flag]
    rw [printDefinition_text]
  | cons x pre ih =>
    show printDefinitions pr flag (x :: (pre ++ d :: post)) = _
    rw [printDefinitions, printDefinition_flag, ih]
    simp only [printDefinitions, printDefinition_flag, List.any_cons, String.append_assoc,
      Bool.or_assoc]

/-! ## The claims -/

/-- C1, as stated, fails. The Meaning with the definitions `sampleWithExample`,
`sampleBare`, `sampleBare2` has a bare second definition, and still a blank
line stands between its block and the next "def. " line: the example of the
first definition set the flag, and the flag stays set. -/
theorem C1_counterexample :
    bare sampleBare = true ∧
    lines (printMeaning plain ⟨"", [sampleWithExample, sampleBare, sampleBare2]⟩)
      = ["def. a", "ex.  e", "", "def. b", "", "def. c"] ∧
    ¬ (∀ (pos : String) (pre : List Definition) (d d' : Definition),
        Meaning.Clean ⟨pos, pre ++ [d, d']⟩ →
        lines (printMeaning plain ⟨pos, pre ++ [d, d']⟩)
          = lines (printMeaning plain ⟨pos, pre ++ [d]⟩) ++ blankIf (hasContent d)
              ++ definitionLines d') := by
  refine ⟨by decide, by decide, fun h => ?_⟩
  have h' := h "" [sampleWithExample] sampleBare sampleBare2 (by decide)
  revert h'
  decide

/-- C1 (amended). In `printMeaning`, for two consecutive definitions `d`, `d'`
of a Meaning whose texts hold no newline, the lines shown are: the lines up to
and including the block of `d`, then exactly one blank line if `d` or a
definition before it in the same Meaning has a non-empty example or a non-empty
synonym or antonym, and none if `d` and all definitions before it are bare,
then the block of `d'`, which starts with its "def. " line. No line of a block
is blank. -/
theorem C1_blank_line_between_definitions (pos : String) (pre : List Definition)
    (d d' : Definition) (post : List Definition)
    (h : Meaning.Clean ⟨pos, pre ++ d :: d' :: post⟩) :
    lines (printMeaning plain ⟨pos, pre ++ d :: d' :: post⟩)
      = lines (printMeaning plain ⟨pos, pre⟩) ++ blankIf (pre.any hasContent)
          ++ definitionLines d
          ++ blankIf (pre.any hasContent || hasContent d)
          ++ definitionLines d'
          ++ lines (printDefinitions plain
              (pre.any hasContent || hasContent d || hasContent d') post)
    ∧ (∀ l ∈ definitionLines d, l ≠ "")
    ∧ (definitionLines d').head? = some ("def. " ++ d'.Definition) := by
  refine ⟨?_, definitionLines_nonblank d, definitionLines_head d'⟩
  have h1 : Meaning.Clean ⟨pos, (pre ++ [d]) ++ d' :: post⟩ := by simpa using h
  have h2 : Meaning.Clean ⟨pos, pre ++ d :: []⟩ :=
    ⟨h.1, fun x hx => h.2 x (by
      simp only [List.mem_append, List.mem_cons, List.mem_singleton, List.not_mem_nil,
        or_false] at hx
      rcases hx with hx | hx <;> simp [hx])⟩
  have e1 := lines_printMeaning_split pos (pre ++ [d]) d' post h1
  have e2 := lines_printMeaning_split pos pre d [] h2
  simp only [printDefinitions, lines_empty, List.append_nil] at e2
  simp only [List.append_assoc, List.singleton_append] at e1
  rw [e1, e2]
  simp [List.any_append, List.append_assoc]

/-- C1 (amended), at a concrete Meaning: an example, two bare definitions, and
one more. -/
theorem C1_blank_line_between_definitions_witness :
    lines (printMeaning plain ⟨"", [sampleWithExample] ++ sampleBare :: sampleBare2 :: [sampleFull]⟩)
      = lines (printMeaning plain ⟨"", [sampleWithExample]⟩)
          ++ blankIf ([sampleWithExample].any hasContent)
          ++ definitionLines sampleBare
          ++ blankIf ([sampleWithExample].any hasContent || hasContent sampleBare)
          ++ definitionLines sampleBare2
          ++ lines (printDefinitions plain
              ([sampleWithExample].any hasContent || hasContent sampleBare
                || hasContent sampleBare2) [sampleFull])
    ∧ (∀ l ∈ definitionLines sampleBare, l ≠ "")
    ∧ (definitionLines sampleBare2).head? = some ("def. " ++ sampleBare2.Definition) :=
  C1_blank_line_between_definitions "" [sampleWithExample] sampleBare sampleBare2 [sampleFull]
    (by decide)

/-- C5. The plain-text rendering of a single definition by `printMeaning` is
its "def. " line, then its "ex.  " line iff the example is non-empty, then its
"syn. " line iff some synonym is non-empty, then its "ant. " line iff some
antonym is non-empty, each terminated by a newline, in this order; synonyms
and antonyms are the non-empty ones in their order joined by ", "; no line is
blank. Inside a longer Meaning the same text follows the blank line, if any,
that the flag asks for. -/
theorem C5_definition_block (d : Definition) :
    printMeaning plain ⟨"", [d]⟩ = unlines (definitionLines d)
    ∧ (∀ flag : Bool, (printDefinition plain flag d).1
          = (if flag then "\n" else "") ++ unlines (definitionLines d))
    ∧ definitionLines d
        = ["def. " ++ d.Definition]
          ++ (if d.Example ≠ "" then ["ex.  " ++ d.Example] else [])
          ++ (if ∃ s ∈ d.Synonyms, s ≠ "" then
                ["syn. " ++ ", ".intercalate (d.Synonyms.filter (fun s => decide (s ≠ "")))]
              else [])
          ++ (if ∃ s ∈ d.Antonyms, s ≠ "" then
                ["ant. " ++ ", ".intercalate (d.Antonyms.filter (fun s => decide (s ≠ "")))]
              else [])
    ∧ (∀ l ∈ definitionLines d, l ≠ "") := by
  refine ⟨?_, fun flag => ?_, ?_, definitionLines_nonblank d⟩
  · rw [printMeaning_plain]
    simp [nonEmpty, printDefinitions, printDefinition_plain]
  · rw [printDefinition_plain]
  · have hf : (fun s : String => decide (s ≠ "")) = nonEmpty := rfl
    have hE : (d.Example ≠ "") ↔ nonEmpty d.Example = true := by simp [nonEmpty]
    have hS : (∃ s ∈ d.Synonyms, s ≠ "") ↔ d.Synonyms.any nonEmpty = true := by
      simp [nonEmpty, List.any_eq_true]
    have hA : (∃ s ∈ d.Antonyms, s ≠ "") ↔ d.Antonyms.any nonEmpty = true := by
      simp [nonEmpty, List.any_eq_true]
    simp only [definitionLines, hf, hE, hS, hA]


/-- C10. The flag `contentAfterDefinition` starts false in every Meaning and
is never cleared inside it. For every styling, every Meaning and every
definition `d` of it, with the definitions `pre` before it: `printMeaning`
writes what it writes for the Meaning cut after `pre`, then the blank line of
line 99 iff some definition of `pre` has a non-empty example or a non-empty
synonym or antonym, then the text of `d`, which starts with the "def. " label,
then the rest. The loop over the Meanings of an entry writes the text of each
Meaning as `printMeaning` gives it for that Meaning alone, so nothing of the
Meaning before reaches the first definition of a Meaning. When no text holds a
newline, the same is read off the lines of the plain output, and what comes
before the block of `d` never ends in a blank line of its own. -/
theorem C10_flag_per_meaning (pr : Color → String → String) (w : Word) (num : Nat)
    (ms1 : List Meaning) (m : Meaning) (ms2 : List Meaning) (pre : List Definition)
    (d : Definition) (post : List Definition)
    (hm : w.Meanings = ms1 ++ m :: ms2) (hd : m.Definitions = pre ++ d :: post) :
    printMeaning pr m
      = printMeaning pr ⟨m.PartOfSpeech, pre⟩
          ++ (if pre.any hasContent then "\n" else "")
          ++ (printDefinition pr false d).1
          ++ printDefinitions pr (pre.any hasContent || hasContent d) post
    ∧ (∃ rest : String, (printDefinition pr false d).1
        = pr (Color.New [.Italic]) "def. "
            ++ pr ((Color.New [.Bold]).Add .FgBlue) (d.Definition ++ "\n") ++ rest)
    ∧ (∀ flag : Bool, (printDefinition pr flag d).2 = (flag || hasContent d))
    ∧ printWord pr w num
        = pr ((Color.New [.Bold]).Add .FgGreen) (toString (num + 1) ++ ". " ++ w.Word)
            ++ printPhonetics w.Phonetics ++ "\n"
            ++ String.join (ms1.map (printMeaning pr))
            ++ printMeaning pr m
            ++ String.join (ms2.map (printMeaning pr))
    ∧ (w.Clean →
        lines (printMeaning plain m)
          = lines (printMeaning plain ⟨m.PartOfSpeech, pre⟩) ++ blankIf (pre.any hasContent)
              ++ definitionLines d
              ++ lines (printDefinitions plain (pre.any hasContent || hasContent d) post)
        ∧ (lines (printMeaning plain ⟨m.PartOfSpeech, pre⟩)).getLast? ≠ some ""
        ∧ (definitionLines d).head? = some ("def. " ++ d.Definition)
        ∧ lines (printWord plain w num)
            = headerLine w num ::
                ((ms1.map (fun x => lines (printMeaning plain x))).flatten
                  ++ lines (printMeaning plain m)
                  ++ (ms2.map (fun x => lines (printMeaning plain x))).flatten)
        ∧ (headerLine w num
              :: (ms1.map (fun x => lines (printMeaning plain x))).flatten).getLast?
            ≠ some "") := by
  have hm' : m = ⟨m.PartOfSpeech, pre ++ d :: post⟩ := by
    cases m
    simp only [Meaning.mk.injEq, true_and]
    exact hd
  refine ⟨?_, printDefinition_starts pr d, fun flag => printDefinition_flag pr flag d, ?_, ?_⟩
  · have e : printMeaning pr ⟨m.PartOfSpeech, pre ++ d :: post⟩
        = printMeaning pr ⟨m.PartOfSpeech, pre⟩
            ++ (if pre.any hasContent then "\n" else "")
            ++ (printDefinition pr false d).1
            ++ printDefinitions pr (pre.any hasContent || hasContent d) post := by
      simp only [printMeaning, printDefinitions_split, Bool.false_or, String.append_assoc]
    rw [← hm'] at e
    exact e
  · rw [printWord_eq, hm]
    simp [join_append, join_cons, String.append_assoc]
  · intro hw
    have hmc : m.Clean := hw.2.2 m (by simp [hm])
    have hms1 : ∀ x ∈ ms1, x.Clean := fun x hx => hw.2.2 x (by simp [hm, hx])
    have hc : Meaning.Clean ⟨m.PartOfSpeech, pre ++ d :: post⟩ := by
      rw [← hm']; exact hmc
    have hpre : Meaning.Clean ⟨m.PartOfSpeech, pre⟩ :=
      ⟨hc.1, fun x hx => hc.2 x (by simp [hx])⟩
    refine ⟨?_, getLast_printMeaning _ hpre, definitionLines_head d, ?_, ?_⟩
    · have e := lines_printMeaning_split m.PartOfSpeech pre d post hc
      rw [← hm'] at e
      exact e
    · rw [lines_printWord w num hw, hm]
      simp
    · have e : headerLine w num :: (ms1.map (fun x => lines (printMeaning plain x))).flatten
          = [headerLine w num]
              ++ (ms1.map (fun x => lines (printMeaning plain x))).flatten := rfl
      rw [e]
      refine getLast_nonblank_append _ _ (getLast_meanings ms1 hms1) (fun _ => ?_)
      simpa using headerLine_ne_empty w num

/-- C10 at a concrete entry: the second Meaning of `sampleWord`, at its second
definition, without styling. -/
theorem C10_flag_per_meaning_witness :
    printMeaning plain ⟨"", [sampleWithExample, sampleBare, sampleBare2]⟩
      = "def. a\nex.  e\n" ++ "\n" ++ "def. b\n" ++ "\ndef. c\n"
    ∧ lines (printWord plain sampleWord 0)
      = ["1. w [fo]", "", "noun", "def. d", "ex.  x", "syn. s, t", "ant. u",
          "def. a", "ex.  e", "", "def. b", "", "def. c"] := by
  have h := C10_flag_per_meaning plain sampleWord 0 [⟨"noun", [sampleFull]⟩]
    ⟨"", [sampleWithExample, sampleBare, sampleBare2]⟩ [] [sampleWithExample] sampleBare
    [sampleBare2] rfl rfl
  refine ⟨?_, ?_⟩
  · rw [h.1]; decide
  · rw [(h.2.2.2.2 (by decide)).2.2.2.1]; decide

/-- C2, as stated, fails. Two entries without meanings are rendered as the two
lines "1. a" and "2. b": the newline written between them ends the first
header line, and no blank line separates the two entry blocks. -/
theorem C2_counterexample :
    lines (renderLoop plain 0 [sampleEntryA, sampleEntryB]) = ["1. a", "2. b"] ∧
    lines (printWord plain sampleEntryA 0) = ["1. a"] ∧
    lines (printWord plain sampleEntryB 1) = ["2. b"] ∧
    ¬ (∀ ws : List Word, (∀ w ∈ ws, w.Clean) → ws ≠ [] →
        lines (renderLoop plain 0 ws) = blocksLines (fun _ => true) 0 ws) := by
  refine ⟨by decide, by decide, by decide, fun h => ?_⟩
  have h' := h [sampleEntryA, sampleEntryB] (by decide) (by decide)
  revert h'
  decide

/-- C2 (amended). For entries whose texts hold no newline, the render loop of
`main` writes the blocks of `printWord` in input order with exactly one newline
character between two consecutive blocks. In lines: the blocks follow each
other in input order, with exactly one blank line after every block but the
last whose entry has meanings, and none after a block whose entry has no
meanings; nothing comes before the first block or after the last; every block
starts with its header line, which is not blank, and does not end in a blank
line. -/
theorem C2_entry_blocks (ws : List Word) (h : ∀ w ∈ ws, w.Clean) :
    lines (renderLoop plain 0 ws)
      = blocksLines (fun w => decide (w.Meanings.length > 0)) 0 ws
    ∧ (∀ (i : Nat) (w w' : Word) (rest : List Word),
        renderLoop plain i (w :: w' :: rest)
          = (if i > 0 then "\n" else "") ++ printWord plain w i ++ "\n"
              ++ printWord plain w' (i + 1) ++ renderLoop plain (i + 2) rest)
    ∧ (∀ w ∈ ws, ∀ i : Nat,
        (lines (printWord plain w i)).head? = some (headerLine w i)
        ∧ headerLine w i ≠ ""
        ∧ (lines (printWord plain w i)).getLast? ≠ some "") := by
  refine ⟨?_, ?_, ?_⟩
  · cases ws with
    | nil => simp [renderLoop, blocksLines, lines_empty]
    | cons w rest =>
      have e : renderLoop plain 0 (w :: rest)
          = printWord plain w 0 ++ renderLoop plain (0 + 1) rest := by
        simp [renderLoop]
      rw [e]
      exact lines_renderLoop_from w rest 0 h
  · intro i w w' rest
    simp [renderLoop, String.append_assoc]
  · intro w hw i
    have hc := h w hw
    rw [lines_printWord w i hc]
    refine ⟨by simp, headerLine_ne_empty w i, ?_⟩
    have e : headerLine w i :: (w.Meanings.map (fun x => lines (printMeaning plain x))).flatten
        = [headerLine w i]
            ++ (w.Meanings.map (fun x => lines (printMeaning plain x))).flatten := rfl
    rw [e]
    refine getLast_nonblank_append _ _ (getLast_meanings _ hc.2.2) (fun _ => ?_)
    simpa using headerLine_ne_empty w i

/-- C2 (amended) at concrete entries: one with meanings between two without. -/
theorem C2_entry_blocks_witness :
    lines (renderLoop plain 0 [sampleEntryA, sampleWord, sampleEntryB])
      = ["1. a",
         "2. w [fo]", "", "noun", "def. d", "ex.  x", "syn. s, t", "ant. u",
          "def. a", "ex.  e", "", "def. b", "", "def. c",
         "",
         "3. b"] := by
  rw [(C2_entry_blocks [sampleEntryA, sampleWord, sampleEntryB] (by decide)).1]
  decide

/-- C6. `printPhonetics` prints nothing when every text is empty (so also for
no Phonetic at all), and otherwise " [" followed by the non-empty texts in
their order joined by ", " and by "]". In `printWord` this text comes right
after the print of `<num+1>. <word>`. -/
theorem C6_phonetics (ps : List Phonetic) (pr : Color → String → String) (w : Word)
    (num : Nat) :
    printPhonetics ps
      = (if ∀ p ∈ ps, p.Text = "" then ""
         else " [" ++ ", ".intercalate
           ((ps.filter (fun p => decide (p.Text ≠ ""))).map (fun p => p.Text)) ++ "]")
    ∧ printWord pr w num
      = pr ((Color.New [.Bold]).Add .FgGreen) (toString (num + 1) ++ ". " ++ w.Word)
          ++ printPhonetics w.Phonetics
          ++ (if w.Meanings.length > 0 then
                "\n" ++ String.join (w.Meanings.map (printMeaning pr)) else "") := by
  refine ⟨?_, printWord_eq pr w num⟩
  rw [printPhonetics_eq]
  have hf : (fun p : Phonetic => decide (p.Text ≠ "")) = (fun p => nonEmpty p.Text) := rfl
  rw [hf]
  by_cases hall : ∀ p ∈ ps, p.Text = ""
  · have : ps.any (fun p => nonEmpty p.Text) = false := by
      simp only [List.any_eq_false, nonEmpty]
      intro p hp
      simp [hall p hp]
    rw [if_pos hall]
    simp [this]
  · have : ps.any (fun p => nonEmpty p.Text) = true := by
      simp only [List.any_eq_true, nonEmpty]
      push_neg at hall
      obtain ⟨p, hp, hne⟩ := hall
      exact ⟨p, hp, by simpa using hne⟩
    rw [if_neg hall]
    simp [this]


/-- C3. When the transport succeeded and the status is not 200, `Lookup` fails:
with the error "Couldn't find word." for status 404 and with the error
"Something went wrong." for any other status. No entries are returned, and the
result is the same whatever the body and whatever the decoder. -/
theorem C3_status_errors (env : Env) (phrase : String) (resp : Response)
    (hget : env.httpGet (BaseUrl ++ phrase) = .ok resp) (hstatus : resp.StatusCode ≠ 200) :
    (resp.StatusCode = 404 →
        (Lookup env phrase).2 = .error (errorsNew "Couldn't find word."))
    ∧ (resp.StatusCode ≠ 404 →
        (Lookup env phrase).2 = .error (errorsNew "Something went wrong."))
    ∧ (errorsNew "Couldn't find word.").Error = "Couldn't find word."
    ∧ (errorsNew "Something went wrong.").Error = "Something went wrong."
    ∧ (∀ (env' : Env) (resp' : Response), env'.httpGet (BaseUrl ++ phrase) = .ok resp' →
        resp'.StatusCode = resp.StatusCode → (Lookup env' phrase).2 = (Lookup env phrase).2) := by
  refine ⟨?_, ?_, rfl, rfl, ?_⟩
  · intro h404
    simp [Lookup, hget, h404]
  · intro h404
    simp [Lookup, hget, hstatus, h404]
  · intro env' resp' hget' hsame
    have hstatus' : resp'.StatusCode ≠ 200 := by rw [hsame]; exact hstatus
    by_cases h404 : resp.StatusCode = 404
    · have h404' : resp'.StatusCode = 404 := by rw [hsame]; exact h404
      simp [Lookup, hget, hget', h404, h404']
    · have h404' : resp'.StatusCode ≠ 404 := by rw [hsame]; exact h404
      simp [Lookup, hget, hget', hstatus, hstatus', h404, h404']

/-- C3 at a concrete world: status 404 for the phrase "zzzznotaword". -/
theorem C3_status_errors_witness :
    (Lookup (sampleEnv 404) "zzzznotaword").2 = .error (errorsNew "Couldn't find word.") :=
  (C3_status_errors (sampleEnv 404) "zzzznotaword" ⟨404, .ok []⟩ rfl (by decide)).1 rfl

/-- C7. With at least one positional argument, `main` looks up exactly the
first one, as it is: the only request goes to `BaseUrl` followed by that
argument, and the program name and any further arguments play no part. If the
lookup fails with error `e`, standard output holds the text of `e` and a
newline and nothing else, and the exit code is 1; if it succeeds, standard
output holds the rendering of all entries and the exit code is 0. -/
theorem C7_main_lookup (env : Env) (prog phrase : String) (extra : List String) :
    (main env (prog :: phrase :: extra)).requests = [BaseUrl ++ phrase]
    ∧ (Lookup env phrase).1 = [BaseUrl ++ phrase]
    ∧ (∀ e : GoError, (Lookup env phrase).2 = .error e →
        main env (prog :: phrase :: extra) = ⟨e.Error ++ "\n", 1, [BaseUrl ++ phrase]⟩)
    ∧ (∀ words : List Word, (Lookup env phrase).2 = .ok words →
        main env (prog :: phrase :: extra)
          = ⟨renderLoop env.pr 0 words, 0, [BaseUrl ++ phrase]⟩) := by
  have h1 : (Lookup env phrase).1 = [BaseUrl ++ phrase] := rfl
  have hmain : ∀ r : Except GoError (List Word), (Lookup env phrase).2 = r →
      main env (prog :: phrase :: extra)
        = match r with
          | .error err => ⟨err.Error ++ "\n", 1, [BaseUrl ++ phrase]⟩
          | .ok words => ⟨renderLoop env.pr 0 words, 0, [BaseUrl ++ phrase]⟩ := by
    intro r hr
    have hpair : Lookup env phrase = ([BaseUrl ++ phrase], r) := by
      rw [← hr, ← h1]
    unfold main
    simp only [List.length_cons, Nat.add_eq, Nat.add_one_ne_zero, beq_iff_eq,
      Nat.succ.injEq, List.getElem?_cons_succ, List.getElem?_cons_zero, hpair]
    cases r <;> simp
  refine ⟨?_, h1, ?_, ?_⟩
  · cases hr : (Lookup env phrase).2 with
    | error e => rw [hmain _ hr]
    | ok ws => rw [hmain _ hr]
  · intro e he
    rw [hmain _ he]
  · intro ws hws
    rw [hmain _ hws]

/-- C8. When the status is 200 and the body is read, `Lookup` returns what the
decoder returns for the full body: the decoded entries, all of them and in
their order, when decoding succeeds, and the decoder's own error, unchanged,
when it fails; so the failure is one of the two errors of `Lookup` for a bad
status only if the decoder's error has that text. -/
theorem C8_decode (env : Env) (phrase : String) (resp : Response) (body : List UInt8)
    (hget : env.httpGet (BaseUrl ++ phrase) = .ok resp) (hstatus : resp.StatusCode = 200)
    (hbody : resp.Body = .ok body) :
    (Lookup env phrase).2 = env.unmarshal body
    ∧ (∀ words : List Word, env.unmarshal body = .ok words ↔ (Lookup env phrase).2 = .ok words)
    ∧ (∀ e : GoError, env.unmarshal body = .error e → (Lookup env phrase).2 = .error e)
    ∧ (∀ e : GoError, env.unmarshal body = .error e →
        e.Error ≠ "Couldn't find word." → e.Error ≠ "Something went wrong." →
        (Lookup env phrase).2 ≠ .error (errorsNew "Couldn't find word.")
        ∧ (Lookup env phrase).2 ≠ .error (errorsNew "Something went wrong.")) := by
  have h : (Lookup env phrase).2 = env.unmarshal body := by
    simp only [Lookup, hget, hstatus, hbody]
    cases env.unmarshal body <;> simp
  refine ⟨h, ?_, ?_, ?_⟩
  · intro ws
    rw [h]
  · intro e he
    rw [h, he]
  · intro e he h1 h2
    rw [h, he]
    constructor
    · intro hc
      injection hc with hc
      exact h1 (by rw [hc]; rfl)
    · intro hc
      injection hc with hc
      exact h2 (by rw [hc]; rfl)

/-- C8 at a concrete world: status 200, and the body decodes to one entry. -/
theorem C8_decode_witness : (Lookup (sampleEnv 200) "word").2 = .ok [sampleEntryA] :=
  (C8_decode (sampleEnv 200) "word" ⟨200, .ok []⟩ [] rfl rfl rfl).1

/-- C9. Without positional arguments `main` requests nothing, writes the usage
text and nothing else to standard output, and exits with code 0; the usage text
holds "Usage: dic <query>". -/
theorem C9_usage (env : Env) (prog : String) :
    main env [prog] = ⟨usage, 0, []⟩
    ∧ (main env [prog]).requests = []
    ∧ usage = "dic\n\n" ++ "Usage: dic <query>" := by
  refine ⟨?_, ?_, by decide⟩ <;> simp [main]

/-- C4 fails on the code. With the process-wide no-colour switch on, the
rendering of `sampleWord`, one of whose definitions has non-empty synonyms and
antonyms, holds the escape character and differs from the plain text: the
explicit `EnableColor` before the "syn." and "ant." labels overrides the
switch, and the italic start sequence is written before each of the two
labels. A Meaning whose definitions have only examples is rendered as plain
text. -/
theorem C4_escape_codes_without_terminal :
    printWord (Color.Print true) sampleWord 0 ≠ printWord plain sampleWord 0
    ∧ '\x1b' ∈ (printWord (Color.Print true) sampleWord 0).data
    ∧ '\x1b' ∉ (printWord plain sampleWord 0).data
    ∧ printMeaning (Color.Print true) ⟨"", [sampleFull]⟩
        = "def. d\nex.  x\n\x1b[3msyn. s, t\n\x1b[3mant. u\n"
    ∧ printMeaning plain ⟨"", [sampleFull]⟩ = "def. d\nex.  x\nsyn. s, t\nant. u\n"
    ∧ printMeaning (Color.Print true) ⟨"noun", [sampleWithExample, sampleBare]⟩
        = printMeaning plain ⟨"noun", [sampleWithExample, sampleBare]⟩ := by
  refine ⟨by decide, by decide, by decide, by decide, by decide, by decide⟩

end Dic
